import Mathlib

/-
Verification development for the str_view library (src/str_view.hpp):
a read-only string view with lazy length resolution and lazy, thread-safe
materialization of a null-terminated copy.

Shallow embedding conventions:
* code units are modelled as `Nat`, the terminator being `0`;
* memory is a finite list of code units, `readMem` returning `0` past the end
  (so a string scan always terminates);
* pointers are `Nat` addresses, `0` playing the role of `nullptr`;
* `size_t` values are `Nat`s below `SIZE_MAX = 2 ^ 64 - 1`; the source uses
  `SIZE_MAX` itself as the "length unknown" sentinel, and all arithmetic the
  source performs on lengths is guarded by `assert`s that rule out wraparound,
  so plain `Nat` arithmetic is exact on the asserted domain;
* a view (`str_view_template`) carries the three data members of the source
  class: the (possibly unknown) cached length `m_Length`, the data pointer
  `m_Begin`, and the tagged pointer `m_NullTerminatedPtr` (0 = not terminated,
  1 = the source buffer is null-terminated by itself, any larger value = the
  address of a lazily allocated owned null-terminated copy);
* operations that mutate the `mutable` atomic caches return the updated view
  next to their result; allocation appends to the memory list, the fresh
  address being the old memory length.
-/

/-- Sentinel for an unknown length, mirroring `SIZE_MAX` for a 64-bit `size_t`. -/
def SIZE_MAX : Nat := 2 ^ 64 - 1

/-- Reading one code unit from memory; reads past the end yield `0`. -/
def readMem (m : List Nat) (a : Nat) : Nat := m.getD a 0

/-- Fuel-driven scan for the terminator, the worker behind `tstrlen`. -/
def tstrlenAux (m : List Nat) (p : Nat) : Nat → Nat
  | 0 => 0
  | fuel + 1 => if readMem m p = 0 then 0 else tstrlenAux m (p + 1) fuel + 1

/-- Model of `tstrlen` (`strlen`/`wcslen`): distance from `p` to the first
terminator code unit. Total because memory is finite and zero-filled beyond
its end. -/
def tstrlen (m : List Nat) (p : Nat) : Nat := tstrlenAux m p (m.length + 1 - p)

/-- The data members of `str_view_template`: the cached length (`SIZE_MAX`
meaning unknown), the data pointer, and the tagged null-termination pointer. -/
structure str_view_template where
  m_Length : Nat
  m_Begin : Nat
  m_NullTerminatedPtr : Nat
deriving DecidableEq, Repr

/-- The value `length()` resolves to (without the cache write): the cached
length when known, otherwise the result of scanning for the terminator. -/
def lengthVal (v : str_view_template) (m : List Nat) : Nat :=
  if v.m_Length = SIZE_MAX then tstrlen m v.m_Begin else v.m_Length

/-- Model of `length()`: resolves and caches an unknown length. -/
def lengthOp (v : str_view_template) (m : List Nat) : Nat × str_view_template :=
  (lengthVal v m, { v with m_Length := lengthVal v m })

/-- Model of `empty()`: for an unknown length only the first code unit is
peeked, after a null check on `m_Begin`. -/
def svEmpty (v : str_view_template) (m : List Nat) : Bool :=
  if v.m_Length = SIZE_MAX then v.m_Begin == 0 || readMem m v.m_Begin == 0
  else v.m_Length == 0

/-- Model of the default constructor. -/
def defaultCtor : str_view_template := ⟨0, 0, 0⟩

/-- Model of the constructor from a null-terminated string `sz` (null pointer
accepted, meaning the empty string). -/
def fromSz (sz : Nat) : str_view_template :=
  ⟨if sz = 0 then 0 else SIZE_MAX, sz, if sz = 0 then 0 else 1⟩

/-- Model of the constructor from a pointer and an explicit length, with no
terminator asserted. -/
def fromPtrLen (str len : Nat) : str_view_template :=
  ⟨len, if len = 0 then 0 else str, 0⟩

/-- Model of the constructor from a pointer and an explicit length with the
caller asserting a terminator at `str + len` (tag `StillNullTerminated`).
For a zero length the guard leaves the view null and untagged. -/
def fromPtrLenStillNullTerminated (str len : Nat) : str_view_template :=
  if len = 0 then ⟨len, 0, 0⟩ else ⟨len, str, 1⟩

/-- Model of the constructor from an STL string whose character data lives at
address `base` and has length `slen`, with an offset and a requested length
that is clamped to the remaining span. -/
def fromString (base slen offset len : Nat) : str_view_template :=
  if min len (slen - offset) = 0 then ⟨0, 0, 0⟩
  else if min len (slen - offset) = slen - offset then
    ⟨min len (slen - offset), base + offset, 1⟩
  else ⟨min len (slen - offset), base + offset, 0⟩

/-- Model of the slicing copy constructor: returns the new view together with
the source as the call leaves it (its length cache may have been filled by the
`src.length()` call in the non-lazy branch). -/
def copyCtor (src : str_view_template) (m : List Nat) (offset len : Nat) :
    str_view_template × str_view_template :=
  if src.m_Length = SIZE_MAX ∧ len = SIZE_MAX then
    (⟨SIZE_MAX, src.m_Begin + offset, 1⟩, src)
  else
    let srcLen := lengthVal src m
    let src' := { src with m_Length := srcLen }
    let mLen := min len (srcLen - offset)
    if mLen = 0 then (⟨0, 0, 0⟩, src')
    else if src.m_NullTerminatedPtr = 1 ∧ mLen = srcLen - offset then
      (⟨mLen, src.m_Begin + offset, 1⟩, src')
    else (⟨mLen, src.m_Begin + offset, 0⟩, src')

/-- Model of the move constructor: the destination takes all three fields, the
source is reset to the empty state by the two `exchange(0)` calls and the
null write to `m_Begin`. -/
def moveCtor (src : str_view_template) : str_view_template × str_view_template :=
  (⟨src.m_Length, src.m_Begin, src.m_NullTerminatedPtr⟩, ⟨0, 0, 0⟩)

/-- Addresses the destructor would `delete[]`: the owned copy when present. -/
def destructorFrees (v : str_view_template) : List Nat :=
  if 1 < v.m_NullTerminatedPtr then [v.m_NullTerminatedPtr] else []

/-- Model of copy assignment. `sameAddr` models the `&src != this` address
check; the result is `(new dst, src as left, addresses freed by the call)`. -/
def copyAssign (dst src : str_view_template) (sameAddr : Bool) :
    str_view_template × str_view_template × List Nat :=
  if sameAddr then (dst, src, [])
  else (⟨src.m_Length, src.m_Begin, if src.m_NullTerminatedPtr = 1 then 1 else 0⟩,
        src, destructorFrees dst)

/-- Model of move assignment. `sameAddr` models the `&src != this` address
check; the result is `(new dst, src as left, addresses freed by the call)`. -/
def moveAssign (dst src : str_view_template) (sameAddr : Bool) :
    str_view_template × str_view_template × List Nat :=
  if sameAddr then (dst, src, [])
  else (⟨src.m_Length, src.m_Begin, src.m_NullTerminatedPtr⟩, ⟨0, 0, 0⟩,
        destructorFrees dst)

/-- Model of `substr`: returns the new view together with `this` as the call
leaves it (the `this->length()` call in the non-lazy branch fills the cache). -/
def substr (v : str_view_template) (m : List Nat) (offset len : Nat) :
    str_view_template × str_view_template :=
  if v.m_Length = SIZE_MAX ∧ len = SIZE_MAX then
    (fromSz (v.m_Begin + offset), v)
  else
    let thisLen := lengthVal v m
    let v' := { v with m_Length := thisLen }
    let len2 := min len (thisLen - offset)
    if v.m_NullTerminatedPtr = 1 ∧ len2 = thisLen - offset then
      (fromPtrLenStillNullTerminated (v.m_Begin + offset) len2, v')
    else (fromPtrLen (v.m_Begin + offset) len2, v')

/-- Address of the function-local `static const CharT nullChar`: a fixed
process-wide address holding a terminator, distinct from the null pointer. -/
def nullCharAddr : Nat := 1

/-- Model of `c_str()`: returns the pointer, the view as the call leaves it,
and the memory after any allocation. An allocation appends the copied range
plus a terminator at the fresh address `m.length`; in this sequential model
the compare-exchange installing the copy always succeeds (the concurrent race
is modelled separately by `threadStep`/`run`). -/
def cstr (v : str_view_template) (m : List Nat) :
    Nat × str_view_template × List Nat :=
  if svEmpty v m then (nullCharAddr, v, m)
  else if v.m_NullTerminatedPtr = 1 then (v.m_Begin, v, m)
  else if v.m_NullTerminatedPtr = 0 then
    let buf := m.length
    let m' := m ++ ((List.range v.m_Length).map fun i => readMem m (v.m_Begin + i)) ++ [0]
    (buf, { v with m_NullTerminatedPtr := buf }, m')
  else (v.m_NullTerminatedPtr, v, m)

/-- Model of `operator==`: resolved lengths must agree and, when nonzero, the
two code-unit ranges must compare equal (`memcmp`). -/
def operatorEq (a b : str_view_template) (m : List Nat) : Bool :=
  if lengthVal a m ≠ lengthVal b m then false
  else if 0 < lengthVal a m then
    (List.range (lengthVal a m)).all fun i =>
      readMem m (a.m_Begin + i) == readMem m (b.m_Begin + i)
  else true

/-- Views in the states the source can actually construct: the cached length is
a `size_t` value, and an unknown length only occurs for a view over a non-null
self-terminated buffer (this is the invariant the `assert(m_NullTerminatedPtr
== 1)` statements in `length`, `empty`, `substr` and the slicing constructor
rely on). -/
def SvWF (v : str_view_template) : Prop :=
  v.m_Length ≤ SIZE_MAX ∧
  (v.m_Length = SIZE_MAX → v.m_NullTerminatedPtr = 1 ∧ v.m_Begin ≠ 0)

/-- Well-formedness a view must satisfy for `c_str`, on top of `SvWF`: a
SelfTerminated view really has a terminator after its resolved range (the
caller guarantee the debug assert checks), an owned copy really is a
null-terminated copy, and the process-wide static `nullChar` reads as the
terminator. -/
def CstrWF (v : str_view_template) (m : List Nat) : Prop :=
  SvWF v ∧
  (v.m_NullTerminatedPtr = 1 → readMem m (v.m_Begin + lengthVal v m) = 0) ∧
  (1 < v.m_NullTerminatedPtr →
    readMem m (v.m_NullTerminatedPtr + v.m_Length) = 0) ∧
  readMem m nullCharAddr = 0

/-- All views the source can produce over a fixed memory: every constructor
(with its arguments in `size_t` range, and, for the explicit-length
not-terminated constructor, an explicit length other than the `SIZE_MAX`
sentinel), every assignment, and every derivation, closed under the cache
updates these operations perform. -/
inductive Reachable (m : List Nat) : str_view_template → Prop where
  | ofDefault : Reachable m defaultCtor
  | ofSz (sz : Nat) : Reachable m (fromSz sz)
  | ofPtrLen (p l : Nat) (hl : l < SIZE_MAX) : Reachable m (fromPtrLen p l)
  | ofPtrLenST (p l : Nat) (hl : l ≤ SIZE_MAX) :
      Reachable m (fromPtrLenStillNullTerminated p l)
  | ofString (base slen o l : Nat) (hs : slen < SIZE_MAX) :
      Reachable m (fromString base slen o l)
  | ofCopy (src : str_view_template) (o l : Nat) (h : Reachable m src) :
      Reachable m (copyCtor src m o l).1
  | ofCopySelf (src : str_view_template) (o l : Nat) (h : Reachable m src) :
      Reachable m (copyCtor src m o l).2
  | ofMoveDst (src : str_view_template) (h : Reachable m src) :
      Reachable m (moveCtor src).1
  | ofMoveSrc (src : str_view_template) (h : Reachable m src) :
      Reachable m (moveCtor src).2
  | ofCopyAssign (dst src : str_view_template) (sa : Bool)
      (hd : Reachable m dst) (hs : Reachable m src) :
      Reachable m (copyAssign dst src sa).1
  | ofMoveAssignDst (dst src : str_view_template) (sa : Bool)
      (hd : Reachable m dst) (hs : Reachable m src) :
      Reachable m (moveAssign dst src sa).1
  | ofMoveAssignSrc (dst src : str_view_template) (sa : Bool)
      (hs : Reachable m src) : Reachable m (moveAssign dst src sa).2.1
  | ofSubstr (v : str_view_template) (o l : Nat) (h : Reachable m v) :
      Reachable m (substr v m o l).1
  | ofSubstrSelf (v : str_view_template) (o l : Nat) (h : Reachable m v) :
      Reachable m (substr v m o l).2
  | ofCstr (v : str_view_template) (h : Reachable m v) :
      Reachable m (cstr v m).2.1

/-- The invariant every reachable view maintains: the cached length is in
`size_t` range and an unknown length forces the SelfTerminated tag. -/
def StrongInv (v : str_view_template) : Prop :=
  v.m_Length ≤ SIZE_MAX ∧ (v.m_Length = SIZE_MAX → v.m_NullTerminatedPtr = 1)

/-- Thread-local state of one `c_str()` call on a shared NotTerminated view,
at the granularity of the call's atomic operations: about to read
`m_NullTerminatedPtr`; saw 0 and about to allocate; holding a freshly
allocated null-terminated copy and about to compare-exchange; or finished
with a returned pointer. -/
inductive TState where
  | ready : TState
  | needAlloc : TState
  | haveBuf : Nat → TState
  | done : Nat → TState
deriving DecidableEq, Repr

/-- Shared state of the concurrent run: the `m_NullTerminatedPtr` cell, the
memory, and ghost bookkeeping of freed and allocated buffer addresses, plus
the per-thread states. -/
structure Config where
  ntp : Nat
  mem : List Nat
  freed : List Nat
  allocs : List Nat
  threads : List TState
deriving DecidableEq, Repr

/-- Outcome of the single atomic read of `m_NullTerminatedPtr` in `c_str`:
0 leads to allocation, 1 would return `m_Begin` directly, any larger value is
an installed copy returned as is. -/
def readResult (b ntp : Nat) : TState :=
  if ntp = 0 then TState.needAlloc
  else if ntp = 1 then TState.done b
  else TState.done ntp

/-- The buffer a thread allocates: the `memcpy` of the `L` code units at `b`
followed by the appended terminator. -/
def copyBuf (m : List Nat) (b L : Nat) : List Nat :=
  ((List.range L).map fun i => readMem m (b + i)) ++ [0]

/-- One atomic step of thread `i` on a shared NotTerminated view `(b, L)`:
the read of the tag cell, the allocation-plus-copy, or the
compare-exchange (install on success; free the redundant buffer and adopt the
winner's pointer on failure). -/
def threadStep (b L : Nat) (c : Config) (i : Nat) : Config :=
  match c.threads.get? i with
  | some TState.ready =>
      { c with threads := c.threads.set i (readResult b c.ntp) }
  | some TState.needAlloc =>
      { c with mem := c.mem ++ copyBuf c.mem b L,
               allocs := c.allocs ++ [c.mem.length],
               threads := c.threads.set i (TState.haveBuf c.mem.length) }
  | some (TState.haveBuf buf) =>
      if c.ntp = 0 then
        { c with ntp := buf, threads := c.threads.set i (TState.done buf) }
      else
        { c with freed := c.freed ++ [buf],
                 threads := c.threads.set i (TState.done c.ntp) }
  | some (TState.done _) => c
  | none => c

/-- Run a schedule: at each step the scheduler picks which thread advances. -/
def run (b L : Nat) (c : Config) : List Nat → Config
  | [] => c
  | i :: s => run b L (threadStep b L c i) s

/-- Initial state: tag cell 0 (NotTerminated), `N` threads about to call
`c_str`, nothing allocated or freed. -/
def initConfig (N : Nat) (m0 : List Nat) : Config :=
  ⟨0, m0, [], [], List.replicate N TState.ready⟩

/-- The buffer held by a thread between its allocation and its
compare-exchange. -/
def pendF : TState → Option Nat
  | TState.haveBuf buf => some buf
  | _ => none

/-- The pointer a finished thread returned. -/
def resF : TState → Option Nat
  | TState.done r => some r
  | _ => none

/-- All buffers currently held by threads that have allocated but not yet
compare-exchanged. -/
def pendingBufs (ts : List TState) : List Nat := ts.filterMap pendF

/-- All pointers returned by finished threads. -/
def resultsOf (ts : List TState) : List Nat := ts.filterMap resF

/-- The currently installed owned copy, as a zero-or-one element list. -/
def installedList (ntp : Nat) : List Nat := if ntp = 0 then [] else [ntp]

/-- Whether a thread has finished its `c_str` call. -/
def isDone : TState → Bool
  | TState.done _ => true
  | _ => false

/-- The invariant of the concurrent materialization protocol over a
NotTerminated view `(b, L)` and an initial memory `m0`: memory only grows and
old cells are stable; every allocated buffer sits above the tag values, inside
memory, is a null-terminated copy of the view's data; allocated addresses are
distinct; the allocated buffers are exactly the freed ones, the ones held by
threads in flight, and the installed one; the tag cell is 0 or an allocated
buffer; and every finished thread returned the installed pointer. -/
structure CInv (b L : Nat) (m0 : List Nat) (c : Config) : Prop where
  mono : m0.length ≤ c.mem.length
  stable : ∀ a, a < m0.length → readMem c.mem a = readMem m0 a
  alloc_props : ∀ a ∈ c.allocs, 2 ≤ a ∧ a + L < c.mem.length ∧
      readMem c.mem (a + L) = 0 ∧
      ∀ j, j < L → readMem c.mem (a + j) = readMem m0 (b + j)
  alloc_nodup : c.allocs.Nodup
  perm : (c.allocs : Multiset Nat) =
      (c.freed : Multiset Nat) + (pendingBufs c.threads : Multiset Nat) +
        (installedList c.ntp : Multiset Nat)
  ntp_ok : c.ntp = 0 ∨ c.ntp ∈ c.allocs
  done_ok : ∀ r ∈ resultsOf c.threads, r = c.ntp ∧ c.ntp ≠ 0

/-- Reads past the end of memory give the terminator value. -/
theorem readMem_zero_of_le (m : List Nat) (p : Nat) (h : m.length ≤ p) :
    readMem m p = 0 :=
  List.getD_eq_default m 0 h

/-- A nonzero read witnesses an in-bounds address. -/
theorem lt_length_of_readMem_ne (m : List Nat) (p : Nat) (h : readMem m p ≠ 0) :
    p < m.length := by
  by_contra hc
  exact h (readMem_zero_of_le m p (by omega))

/-- Reading the left part of an appended memory. -/
theorem readMem_append_left (m t : List Nat) (a : Nat) (h : a < m.length) :
    readMem (m ++ t) a = readMem m a := by
  simp only [readMem]
  rw [List.getD_append m t 0 a h]

/-- Reading the appended part of memory. -/
theorem readMem_append_right (m t : List Nat) (j : Nat) :
    readMem (m ++ t) (m.length + j) = readMem t j := by
  simp only [readMem]
  rw [List.getD_append_right m t 0 (m.length + j) (by omega)]
  congr 1
  omega

/-- The fuel of `tstrlenAux` is irrelevant once it covers the remaining
memory. -/
theorem tstrlenAux_fuel (m : List Nat) (p f : Nat) :
    m.length + 1 - p ≤ f → tstrlenAux m p f = tstrlen m p := by
  simp only [tstrlen]
  induction f generalizing p with
  | zero =>
    intro hf
    rw [show m.length + 1 - p = 0 by omega]
  | succ f ih =>
    intro hf
    by_cases h : readMem m p = 0
    · cases hk : m.length + 1 - p with
      | zero => simp [tstrlenAux, h]
      | succ k => simp [tstrlenAux, h]
    · have hp : p < m.length := lt_length_of_readMem_ne m p h
      rw [show m.length + 1 - p = (m.length + 1 - (p + 1)) + 1 by omega]
      simp only [tstrlenAux, if_neg h]
      rw [ih (p + 1) (by omega)]

/-- One-step unfolding of `tstrlen`. -/
theorem tstrlen_unfold (m : List Nat) (p : Nat) :
    tstrlen m p = if readMem m p = 0 then 0 else tstrlen m (p + 1) + 1 := by
  by_cases h : readMem m p = 0
  · simp only [tstrlen, if_pos h]
    cases hk : m.length + 1 - p with
    | zero => simp [tstrlenAux]
    | succ k => simp [tstrlenAux, h]
  · have hp : p < m.length := lt_length_of_readMem_ne m p h
    simp only [tstrlen, if_neg h]
    rw [show m.length + 1 - p = (m.length + 1 - (p + 1)) + 1 by omega]
    simp only [tstrlenAux, if_neg h]

/-- The scanned length never exceeds the remaining memory. -/
theorem tstrlen_le (m : List Nat) (p : Nat) : tstrlen m p ≤ m.length - p := by
  rw [tstrlen_unfold]
  split
  · omega
  · rename_i h
    have hp : p < m.length := lt_length_of_readMem_ne m p h
    have ih := tstrlen_le m (p + 1)
    omega
termination_by m.length - p
decreasing_by
  have : p < m.length := lt_length_of_readMem_ne m p (by assumption)
  omega

/-- The scan stops exactly on a terminator. -/
theorem tstrlen_term (m : List Nat) (p : Nat) :
    readMem m (p + tstrlen m p) = 0 := by
  rw [tstrlen_unfold]
  split
  · rename_i h
    simpa using h
  · rename_i h
    have hp : p < m.length := lt_length_of_readMem_ne m p h
    rw [show p + (tstrlen m (p + 1) + 1) = (p + 1) + tstrlen m (p + 1) by omega]
    exact tstrlen_term m (p + 1)
termination_by m.length - p
decreasing_by
  have : p < m.length := lt_length_of_readMem_ne m p (by assumption)
  omega

/-- Scanning from an offset inside the string drops that many characters. -/
theorem tstrlen_shift (m : List Nat) (p o : Nat) (h : o ≤ tstrlen m p) :
    tstrlen m (p + o) = tstrlen m p - o := by
  induction o generalizing p with
  | zero => simp
  | succ o ih =>
    have h0 : readMem m p ≠ 0 := by
      intro hz
      rw [tstrlen_unfold, if_pos hz] at h
      omega
    have hu : tstrlen m p = tstrlen m (p + 1) + 1 := by
      rw [tstrlen_unfold, if_neg h0]
    have ho : o ≤ tstrlen m (p + 1) := by omega
    rw [show p + (o + 1) = (p + 1) + o by omega, ih (p + 1) ho]
    omega

/-- In a memory smaller than the address space, a resolved length is always a
proper `size_t` value, never the sentinel. -/
theorem lengthVal_lt (v : str_view_template) (m : List Nat)
    (hv : v.m_Length ≤ SIZE_MAX) (hm : m.length < SIZE_MAX) :
    lengthVal v m < SIZE_MAX := by
  unfold lengthVal
  split
  · have := tstrlen_le m v.m_Begin
    omega
  · rename_i h
    omega

/-- Characterization of `operatorEq`: equal resolved lengths plus, for a
nonzero length, pointwise equal code-unit ranges. -/
theorem operatorEq_iff (a b : str_view_template) (m : List Nat) :
    operatorEq a b m = true ↔
      (lengthVal a m = lengthVal b m ∧
        (0 < lengthVal a m →
          ∀ i < lengthVal a m, readMem m (a.m_Begin + i) = readMem m (b.m_Begin + i))) := by
  unfold operatorEq
  by_cases hlen : lengthVal a m = lengthVal b m
  · rw [if_neg (by simp [hlen])]
    by_cases hpos : 0 < lengthVal a m
    · rw [if_pos hpos]
      simp only [List.all_eq_true, List.mem_range, beq_iff_eq]
      constructor
      · intro h
        exact ⟨hlen, fun _ i hi => h i hi⟩
      · intro h i hi
        exact h.2 hpos i hi
    · rw [if_neg hpos]
      simp only [true_iff]
      exact ⟨hlen, fun h => absurd h hpos⟩
  · rw [if_pos (by simpa using hlen)]
    constructor
    · exact fun h => absurd h Bool.false_ne_true
    · exact fun h => absurd h.1 hlen

/-- C8: two views compare equal exactly when their resolved lengths are equal
and, for a nonzero length, their code-unit ranges are pointwise identical;
the characterization never mentions the termination/ownership tag, equality is
reflexive and symmetric, a null-terminated construction of a three-character
string equals a pointer-plus-length-3 construction over the same data, a
three-character view differs from a two-character one, and two empty views of
different construction are equal. -/
theorem c8_equality_content_based (a b : str_view_template) (m : List Nat) :
    (operatorEq a b m = true ↔
      (lengthVal a m = lengthVal b m ∧
        (0 < lengthVal a m →
          ∀ i < lengthVal a m, readMem m (a.m_Begin + i) = readMem m (b.m_Begin + i)))) ∧
    operatorEq a a m = true ∧
    operatorEq a b m = operatorEq b a m ∧
    operatorEq (fromSz 2) (fromPtrLen 2 3) [9, 0, 97, 98, 99, 0] = true ∧
    operatorEq (fromSz 2) (fromPtrLen 2 2) [9, 0, 97, 98, 99, 0] = false ∧
    operatorEq (fromPtrLen 2 0) defaultCtor [9, 0, 97, 98, 99, 0] = true := by
  refine ⟨operatorEq_iff a b m, ?_, ?_, by decide, by decide, by decide⟩
  · rw [operatorEq_iff]
    exact ⟨rfl, fun _ i _ => rfl⟩
  · rw [Bool.eq_iff_iff, operatorEq_iff, operatorEq_iff]
    constructor
    · rintro ⟨h1, h2⟩
      refine ⟨h1.symm, fun hp i hi => ?_⟩
      exact (h2 (h1 ▸ hp) i (h1 ▸ hi)).symm
    · rintro ⟨h1, h2⟩
      refine ⟨h1.symm, fun hp i hi => ?_⟩
      exact (h2 (h1 ▸ hp) i (h1 ▸ hi)).symm

/-- C9: moving a view, by move construction or by move assignment, leaves the
moved-from view in the empty state (zero length, null begin, no termination or
ownership tag, so its destructor frees nothing) and gives the destination
exactly the pre-move fields, so an owned null-terminated copy is transferred
and would be freed exactly once, by the destination; move assignment itself
frees only the destination's previously owned copy. -/
theorem c9_move_transfer (src dst : str_view_template) (m : List Nat) :
    (moveCtor src).1 = src ∧
    (moveCtor src).2 = defaultCtor ∧
    lengthVal (moveCtor src).2 m = 0 ∧
    (moveCtor src).2.m_Begin = 0 ∧
    destructorFrees (moveCtor src).2 = [] ∧
    destructorFrees (moveCtor src).1 = destructorFrees src ∧
    (moveAssign dst src false).1 = src ∧
    (moveAssign dst src false).2.1 = defaultCtor ∧
    lengthVal (moveAssign dst src false).2.1 m = 0 ∧
    (moveAssign dst src false).2.1.m_Begin = 0 ∧
    (moveAssign dst src false).2.2 = destructorFrees dst ∧
    destructorFrees (moveAssign dst src false).1 = destructorFrees src ∧
    destructorFrees (moveAssign dst src false).2.1 = [] := by
  refine ⟨rfl, rfl, ?_, rfl, ?_, rfl, rfl, rfl, ?_, rfl, rfl, rfl, ?_⟩ <;>
    simp [moveCtor, moveAssign, lengthVal, destructorFrees, defaultCtor, SIZE_MAX]

/-- C10: self-assignment, both copy and move flavors, is a no-op: with the
address check reporting identity the view is returned unchanged, nothing is
freed, and in particular the owned null-terminated copy (what a previous
`c_str()` call returned) survives. -/
theorem c10_self_assignment_noop (v : str_view_template) :
    copyAssign v v true = (v, v, []) ∧
    moveAssign v v true = (v, v, []) ∧
    destructorFrees (copyAssign v v true).1 = destructorFrees v ∧
    (copyAssign v v true).2.2 = [] ∧
    (moveAssign v v true).2.2 = [] :=
  ⟨rfl, rfl, rfl, rfl, rfl⟩

/-- C5 counterexample: constructing with an explicit length of zero and the
`StillNullTerminated` tag yields a view that is NOT `SelfTerminated` — the
`if(length)` guard leaves the tag at 0 (NotTerminated) and the pointer null,
contradicting the claim that every such construction is SelfTerminated. -/
theorem c5_counterexample :
    (fromPtrLenStillNullTerminated 7 0).m_NullTerminatedPtr ≠ 1 ∧
    (fromPtrLenStillNullTerminated 7 0).m_NullTerminatedPtr = 0 ∧
    (fromPtrLenStillNullTerminated 7 0).m_Begin = 0 ∧
    (fromPtrLenStillNullTerminated 7 0).m_Length = 0 := by decide

/-- C5 (amended): a construction from a pointer and a positive explicit length
with the `StillNullTerminated` tag has exactly that length, that pointer, and
the SelfTerminated tag; with length zero the view is the empty NotTerminated
view instead. -/
theorem c5_still_null_terminated_ctor (p n : Nat) :
    (0 < n → fromPtrLenStillNullTerminated p n = ⟨n, p, 1⟩) ∧
    (n = 0 → fromPtrLenStillNullTerminated p n = ⟨0, 0, 0⟩) := by
  constructor
  · intro h
    simp only [fromPtrLenStillNullTerminated]
    rw [if_neg (by omega)]
  · intro h
    subst h
    simp [fromPtrLenStillNullTerminated]

/-- C5 witness: the amended theorem applied at a concrete positive length. -/
theorem c5_witness : 0 < 3 ∧ fromPtrLenStillNullTerminated 9 3 = ⟨3, 9, 1⟩ :=
  ⟨by decide, (c5_still_null_terminated_ctor 9 3).1 (by decide)⟩

/-- C6 counterexample: for a one-character managed string and offset 1, the
resulting view is clamped to length `1 - 1 = 0`, so it spans exactly to the
end of the string (`offset + length = slen`), yet its tag is NOT
SelfTerminated — contradicting the claim that a view reaching the end of the
string is SelfTerminated. -/
theorem c6_counterexample :
    (fromString 5 1 1 7).m_Length = 1 - 1 ∧
    1 + (fromString 5 1 1 7).m_Length = 1 ∧
    (fromString 5 1 1 7).m_NullTerminatedPtr ≠ 1 := by decide

/-- C6 (amended): for an in-range offset, the managed-string constructor
clamps the requested length to `min len (slen - offset)`; the view is
SelfTerminated exactly when it is nonempty and reaches the end of the string,
it points at `base + offset` when nonempty, it is the empty view when the
clamped length is zero, and it never owns a copy. -/
theorem c6_string_ctor (base slen o l : Nat) (h : o ≤ slen) :
    (fromString base slen o l).m_Length = min l (slen - o) ∧
    ((fromString base slen o l).m_NullTerminatedPtr = 1 ↔
      (0 < min l (slen - o) ∧ min l (slen - o) = slen - o)) ∧
    (0 < min l (slen - o) → (fromString base slen o l).m_Begin = base + o) ∧
    (min l (slen - o) = 0 → fromString base slen o l = ⟨0, 0, 0⟩) ∧
    (fromString base slen o l).m_NullTerminatedPtr ≤ 1 := by
  simp only [fromString]
  by_cases h0 : min l (slen - o) = 0
  · rw [if_pos h0]
    refine ⟨h0.symm, by simp [h0], fun hp => absurd h0 (by omega), fun _ => rfl, by simp⟩
  · rw [if_neg h0]
    by_cases h1 : min l (slen - o) = slen - o
    · rw [if_pos h1]
      exact ⟨rfl, by simp [h1]; omega, fun _ => rfl, fun hz => absurd hz h0, by simp⟩
    · rw [if_neg h1]
      exact ⟨rfl, by simp [h1], fun _ => rfl, fun hz => absurd hz h0, by simp⟩

/-- C6 witness: the amended theorem applied to a concrete string of length 3
with offset 1 and requested length 2, a nonempty view reaching the end. -/
theorem c6_witness : (fromString 4 3 1 2).m_NullTerminatedPtr = 1 := by
  have h := c6_string_ctor 4 3 1 2 (by decide)
  exact h.2.1.mpr (by decide)

/-- The null-terminated-string constructor on a non-null pointer. -/
theorem fromSz_of_ne (sz : Nat) (h : sz ≠ 0) : fromSz sz = ⟨SIZE_MAX, sz, 1⟩ := by
  simp [fromSz, h]

/-- The `StillNullTerminated` constructor always stores the given length. -/
theorem fromPtrLenST_mLength (p n : Nat) :
    (fromPtrLenStillNullTerminated p n).m_Length = n := by
  unfold fromPtrLenStillNullTerminated
  split <;> rfl

/-- The `StillNullTerminated` constructor tags the view only for a nonzero
length. -/
theorem fromPtrLenST_ntp (p n : Nat) :
    (fromPtrLenStillNullTerminated p n).m_NullTerminatedPtr =
      if n = 0 then 0 else 1 := by
  unfold fromPtrLenStillNullTerminated
  split <;> rename_i h <;> simp [h]

/-- Unfolding `substr` in the non-lazy branch. -/
theorem substr_known (v : str_view_template) (m : List Nat) (o l : Nat)
    (hnl : ¬(v.m_Length = SIZE_MAX ∧ l = SIZE_MAX)) :
    substr v m o l =
      (if v.m_NullTerminatedPtr = 1 ∧
          min l (lengthVal v m - o) = lengthVal v m - o then
        fromPtrLenStillNullTerminated (v.m_Begin + o) (min l (lengthVal v m - o))
      else fromPtrLen (v.m_Begin + o) (min l (lengthVal v m - o)),
      { v with m_Length := lengthVal v m }) := by
  simp only [substr, if_neg hnl]
  split <;> rfl

/-- Unfolding the slicing copy constructor in the non-lazy branch. -/
theorem copyCtor_known (src : str_view_template) (m : List Nat) (o l : Nat)
    (hnl : ¬(src.m_Length = SIZE_MAX ∧ l = SIZE_MAX)) :
    copyCtor src m o l =
      (if min l (lengthVal src m - o) = 0 then ⟨0, 0, 0⟩
       else if src.m_NullTerminatedPtr = 1 ∧
          min l (lengthVal src m - o) = lengthVal src m - o then
         ⟨min l (lengthVal src m - o), src.m_Begin + o, 1⟩
       else ⟨min l (lengthVal src m - o), src.m_Begin + o, 0⟩,
       { src with m_Length := lengthVal src m }) := by
  simp only [copyCtor, if_neg hnl]
  split
  · rfl
  · split <;> rfl

/-- C3: slicing a view, via `substr` or the slicing copy constructor, with an
offset within the source's resolved length: if the source length is unknown
and the requested length is unbounded, the result is an unknown-length
SelfTerminated view over `begin + offset` and the source is left untouched (no
forced resolution); otherwise the source's length is resolved into its cache
(to a proper value below the sentinel), the result's length is the minimum of
the requested length and the remaining span, and the result is SelfTerminated
exactly when it is nonempty and reaches the end of a SelfTerminated source; in
all cases the result's tag is 0 or 1, never an inherited owned copy. -/
theorem c3_slice_laziness_and_clamping (v : str_view_template) (m : List Nat)
    (o l : Nat) (hwf : SvWF v) (hm : m.length < SIZE_MAX)
    (ho : o ≤ lengthVal v m) :
    (v.m_Length = SIZE_MAX ∧ l = SIZE_MAX →
      substr v m o l = (⟨SIZE_MAX, v.m_Begin + o, 1⟩, v) ∧
      copyCtor v m o l = (⟨SIZE_MAX, v.m_Begin + o, 1⟩, v)) ∧
    (¬(v.m_Length = SIZE_MAX ∧ l = SIZE_MAX) →
      (substr v m o l).1.m_Length = min l (lengthVal v m - o) ∧
      (substr v m o l).2 = { v with m_Length := lengthVal v m } ∧
      lengthVal v m < SIZE_MAX ∧
      ((substr v m o l).1.m_NullTerminatedPtr = 1 ↔
        (v.m_NullTerminatedPtr = 1 ∧ 0 < min l (lengthVal v m - o) ∧
          min l (lengthVal v m - o) = lengthVal v m - o)) ∧
      (copyCtor v m o l).1.m_Length = min l (lengthVal v m - o) ∧
      (copyCtor v m o l).2 = { v with m_Length := lengthVal v m } ∧
      ((copyCtor v m o l).1.m_NullTerminatedPtr = 1 ↔
        (v.m_NullTerminatedPtr = 1 ∧ 0 < min l (lengthVal v m - o) ∧
          min l (lengthVal v m - o) = lengthVal v m - o))) ∧
    (substr v m o l).1.m_NullTerminatedPtr ≤ 1 ∧
    (copyCtor v m o l).1.m_NullTerminatedPtr ≤ 1 := by
  refine ⟨?_, ?_, ?_, ?_⟩
  · rintro ⟨h1, h2⟩
    obtain ⟨hn, hb⟩ := hwf.2 h1
    constructor
    · simp only [substr, if_pos (And.intro h1 h2)]
      rw [fromSz_of_ne _ (by omega)]
    · simp only [copyCtor, if_pos (And.intro h1 h2)]
  · intro hnl
    rw [substr_known v m o l hnl, copyCtor_known v m o l hnl]
    refine ⟨?_, rfl, lengthVal_lt v m hwf.1 hm, ?_, ?_, rfl, ?_⟩
    · by_cases hc : v.m_NullTerminatedPtr = 1 ∧
          min l (lengthVal v m - o) = lengthVal v m - o
      · rw [if_pos hc]
        exact fromPtrLenST_mLength _ _
      · rw [if_neg hc]
        rfl
    · by_cases hc : v.m_NullTerminatedPtr = 1 ∧
          min l (lengthVal v m - o) = lengthVal v m - o
      · rw [if_pos hc, fromPtrLenST_ntp]
        constructor
        · intro h
          refine ⟨hc.1, ?_, hc.2⟩
          by_contra hz
          rw [if_pos (by omega)] at h
          omega
        · intro h
          rw [if_neg (by omega)]
      · rw [if_neg hc]
        simp only [fromPtrLen]
        constructor
        · intro h
          omega
        · intro h
          exact absurd ⟨h.1, h.2.2⟩ hc
    · by_cases h0 : min l (lengthVal v m - o) = 0
      · rw [if_pos h0]
        exact h0.symm
      · rw [if_neg h0]
        by_cases hc : v.m_NullTerminatedPtr = 1 ∧
            min l (lengthVal v m - o) = lengthVal v m - o
        · rw [if_pos hc]
        · rw [if_neg hc]
    · by_cases h0 : min l (lengthVal v m - o) = 0
      · rw [if_pos h0]
        constructor
        · intro h
          simp at h
        · rintro ⟨h1, h2, h3⟩
          omega
      · rw [if_neg h0]
        by_cases hc : v.m_NullTerminatedPtr = 1 ∧
            min l (lengthVal v m - o) = lengthVal v m - o
        · rw [if_pos hc]
          simp only [true_iff]
          exact ⟨hc.1, by omega, hc.2⟩
        · rw [if_neg hc]
          constructor
          · intro h
            simp at h
          · intro h
            exact absurd ⟨h.1, h.2.2⟩ hc
  · by_cases hl : v.m_Length = SIZE_MAX ∧ l = SIZE_MAX
    · simp only [substr, if_pos hl]
      simp only [fromSz]
      split <;> omega
    · rw [substr_known v m o l hl]
      by_cases hc : v.m_NullTerminatedPtr = 1 ∧
          min l (lengthVal v m - o) = lengthVal v m - o
      · rw [if_pos hc, fromPtrLenST_ntp]
        split <;> omega
      · rw [if_neg hc]
        exact Nat.zero_le 1
  · by_cases hl : v.m_Length = SIZE_MAX ∧ l = SIZE_MAX
    · simp only [copyCtor, if_pos hl]
      exact Nat.le_refl 1
    · rw [copyCtor_known v m o l hl]
      by_cases h0 : min l (lengthVal v m - o) = 0
      · rw [if_pos h0]
        exact Nat.zero_le 1
      · rw [if_neg h0]
        by_cases hc : v.m_NullTerminatedPtr = 1 ∧
            min l (lengthVal v m - o) = lengthVal v m - o
        · rw [if_pos hc]
        · rw [if_neg hc]
          exact Nat.zero_le 1

/-- C3 witness: the lazy branch on a concrete null-terminated view with a
nonzero offset preserves the unknown length and SelfTerminated tag without
touching the source. -/
theorem c3_witness :
    substr (fromSz 2) [9, 0, 97, 98, 99, 0] 1 SIZE_MAX =
      (⟨SIZE_MAX, 3, 1⟩, fromSz 2) := by
  have h := c3_slice_laziness_and_clamping (fromSz 2) [9, 0, 97, 98, 99, 0] 1
    SIZE_MAX ⟨by decide, by decide⟩ (by decide) (by decide)
  exact (h.1 ⟨by decide, rfl⟩).1

/-- Resolving a view whose cached length is a proper value is the identity. -/
theorem lengthVal_known (v : str_view_template) (m : List Nat)
    (h : v.m_Length ≠ SIZE_MAX) : lengthVal v m = v.m_Length := by
  simp [lengthVal, h]

/-- The `StillNullTerminated` constructor keeps the pointer for a nonzero
length. -/
theorem fromPtrLenST_begin (p n : Nat) (h : n ≠ 0) :
    (fromPtrLenStillNullTerminated p n).m_Begin = p := by
  unfold fromPtrLenStillNullTerminated
  rw [if_neg h]

/-- The pointer-plus-length constructor keeps the pointer for a nonzero
length. -/
theorem fromPtrLen_begin (p n : Nat) (h : n ≠ 0) :
    (fromPtrLen p n).m_Begin = p := by
  simp [fromPtrLen, h]

/-- Behavior of a single `substr` on a well-formed view: the result resolves
to the clamped length `min l (lengthVal v m - o)`, points at `v.m_Begin + o`
when nonempty, and is well-formed again. -/
theorem substr_spec (v : str_view_template) (m : List Nat) (o l : Nat)
    (hwf : SvWF v) (hm : m.length < SIZE_MAX) (ho : o ≤ lengthVal v m)
    (hl : l ≤ SIZE_MAX) :
    lengthVal (substr v m o l).1 m = min l (lengthVal v m - o) ∧
    (0 < min l (lengthVal v m - o) →
      (substr v m o l).1.m_Begin = v.m_Begin + o) ∧
    SvWF (substr v m o l).1 := by
  have hL : lengthVal v m < SIZE_MAX := lengthVal_lt v m hwf.1 hm
  by_cases hlz : v.m_Length = SIZE_MAX ∧ l = SIZE_MAX
  · obtain ⟨hn, hb⟩ := hwf.2 hlz.1
    have heq1 : (substr v m o l).1 = ⟨SIZE_MAX, v.m_Begin + o, 1⟩ := by
      simp only [substr, if_pos hlz]
      rw [fromSz_of_ne _ (by omega)]
    have hLv : lengthVal v m = tstrlen m v.m_Begin := by
      simp [lengthVal, hlz.1]
    have hshift : tstrlen m (v.m_Begin + o) = tstrlen m v.m_Begin - o :=
      tstrlen_shift m v.m_Begin o (by omega)
    have hres : lengthVal (⟨SIZE_MAX, v.m_Begin + o, 1⟩ : str_view_template) m =
        tstrlen m (v.m_Begin + o) := by
      simp [lengthVal]
    refine ⟨?_, fun _ => ?_, ?_⟩
    · rw [heq1, hres, hshift, hlz.2, hLv]
      have ht := tstrlen_le m v.m_Begin
      omega
    · rw [heq1]
    · rw [heq1]
      exact ⟨Nat.le_refl _, fun _ => ⟨rfl, show v.m_Begin + o ≠ 0 by omega⟩⟩
  · rw [substr_known v m o l hlz]
    have hlen2 : min l (lengthVal v m - o) < SIZE_MAX := by omega
    by_cases hc : v.m_NullTerminatedPtr = 1 ∧
        min l (lengthVal v m - o) = lengthVal v m - o
    · rw [if_pos hc]
      refine ⟨?_, ?_, ?_⟩
      · rw [lengthVal_known _ m (by rw [fromPtrLenST_mLength]; omega),
          fromPtrLenST_mLength]
      · intro hp
        exact fromPtrLenST_begin _ _ (by omega)
      · refine ⟨by rw [fromPtrLenST_mLength]; omega,
          fun hx => absurd hx (by rw [fromPtrLenST_mLength]; omega)⟩
    · rw [if_neg hc]
      refine ⟨?_, ?_, ?_⟩
      · rw [lengthVal_known _ m (by simp [fromPtrLen]; omega)]
        rfl
      · intro hp
        exact fromPtrLen_begin _ _ (by omega)
      · exact ⟨by simp [fromPtrLen]; omega,
          fun hx => absurd hx (by simp [fromPtrLen]; omega)⟩

/-- C7: composing two in-precondition `substr` calls is equivalent to a single
`substr` at the combined offset `o1 + o2` and combined requested length
`min l2 (l1 - o2)`: the two result views compare equal under the library's own
`operator==`, their resolved lengths are identical (identical clamping), and
when nonempty they point at the same address. -/
theorem c7_substr_composition (v : str_view_template) (m : List Nat)
    (o1 l1 o2 l2 : Nat) (hwf : SvWF v) (hm : m.length < SIZE_MAX)
    (hl1 : l1 ≤ SIZE_MAX) (hl2 : l2 ≤ SIZE_MAX)
    (ho1 : o1 ≤ lengthVal v m)
    (ho2 : o2 ≤ lengthVal (substr v m o1 l1).1 m) :
    operatorEq (substr (substr v m o1 l1).1 m o2 l2).1
      (substr v m (o1 + o2) (min l2 (l1 - o2))).1 m = true ∧
    lengthVal (substr (substr v m o1 l1).1 m o2 l2).1 m =
      lengthVal (substr v m (o1 + o2) (min l2 (l1 - o2))).1 m ∧
    (0 < lengthVal (substr (substr v m o1 l1).1 m o2 l2).1 m →
      (substr (substr v m o1 l1).1 m o2 l2).1.m_Begin =
        (substr v m (o1 + o2) (min l2 (l1 - o2))).1.m_Begin) := by
  have h1 := substr_spec v m o1 l1 hwf hm ho1 hl1
  have h2 := substr_spec (substr v m o1 l1).1 m o2 l2 h1.2.2 hm ho2 hl2
  have hw : lengthVal (substr v m o1 l1).1 m = min l1 (lengthVal v m - o1) := h1.1
  have ho12 : o1 + o2 ≤ lengthVal v m := by
    rw [hw] at ho2
    omega
  have h3 := substr_spec v m (o1 + o2) (min l2 (l1 - o2)) hwf hm ho12 (by omega)
  have hlen : lengthVal (substr (substr v m o1 l1).1 m o2 l2).1 m =
      lengthVal (substr v m (o1 + o2) (min l2 (l1 - o2))).1 m := by
    rw [h2.1, h3.1, hw]
    omega
  have hbeg : 0 < lengthVal (substr (substr v m o1 l1).1 m o2 l2).1 m →
      (substr (substr v m o1 l1).1 m o2 l2).1.m_Begin =
        (substr v m (o1 + o2) (min l2 (l1 - o2))).1.m_Begin := by
    intro hp0
    have hp : 0 < min l2 (lengthVal (substr v m o1 l1).1 m - o2) := by
      rw [← h2.1]
      exact hp0
    have hwpos : 0 < min l1 (lengthVal v m - o1) := by omega
    rw [h2.2.1 hp, h1.2.1 hwpos, h3.2.1 (by omega)]
    omega
  refine ⟨?_, hlen, hbeg⟩
  rw [operatorEq_iff]
  refine ⟨hlen, fun hp i _ => ?_⟩
  rw [hbeg hp]

/-- C7 witness: composition applied on a concrete not-terminated view of
length 3, slicing (offset 1, length 2) then (offset 1, length 5). -/
theorem c7_witness :
    operatorEq
      (substr (substr (fromPtrLen 2 3) [9, 0, 7, 8, 9, 0] 1 2).1
        [9, 0, 7, 8, 9, 0] 1 5).1
      (substr (fromPtrLen 2 3) [9, 0, 7, 8, 9, 0] (1 + 1) (min 5 (2 - 1))).1
      [9, 0, 7, 8, 9, 0] = true :=
  (c7_substr_composition (fromPtrLen 2 3) [9, 0, 7, 8, 9, 0] 1 2 1 5
    ⟨by decide, by decide⟩ (by decide) (by decide) (by decide) (by decide)
    (by decide)).1

/-- An empty well-formed view resolves to length zero. -/
theorem lengthVal_of_empty (v : str_view_template) (m : List Nat)
    (hwf : SvWF v) (he : svEmpty v m = true) : lengthVal v m = 0 := by
  unfold svEmpty at he
  unfold lengthVal
  by_cases hu : v.m_Length = SIZE_MAX
  · rw [if_pos hu]
    rw [if_pos hu] at he
    obtain ⟨hn, hb⟩ := hwf.2 hu
    simp only [Bool.or_eq_true, beq_iff_eq] at he
    rcases he with he | he
    · exact absurd he hb
    · rw [tstrlen_unfold, if_pos he]
  · rw [if_neg hu]
    rw [if_neg hu] at he
    simpa using he

/-- C1: for every well-formed view, `c_str` returns a pointer whose code unit
at offset `length()` is the terminator; an empty view gets the address of the
process-wide static terminator with no allocation and no state change; a
nonempty SelfTerminated view gets `m_Begin` back with no allocation and no
state change; and the call never changes the view's resolved length. -/
theorem c1_cstr_terminator (v : str_view_template) (m : List Nat)
    (h : CstrWF v m) :
    readMem (cstr v m).2.2 ((cstr v m).1 + lengthVal v m) = 0 ∧
    lengthVal (cstr v m).2.1 (cstr v m).2.2 = lengthVal v m ∧
    (svEmpty v m = true →
      (cstr v m).1 = nullCharAddr ∧ (cstr v m).2.2 = m ∧ (cstr v m).2.1 = v) ∧
    (svEmpty v m = false → v.m_NullTerminatedPtr = 1 →
      (cstr v m).1 = v.m_Begin ∧ (cstr v m).2.2 = m ∧ (cstr v m).2.1 = v) := by
  obtain ⟨hwf, hterm, hown, hstatic⟩ := h
  by_cases he : svEmpty v m = true
  · have hcs : cstr v m = (nullCharAddr, v, m) := by
      simp only [cstr, if_pos he]
    rw [hcs]
    have h0 : lengthVal v m = 0 := lengthVal_of_empty v m hwf he
    refine ⟨by rw [h0]; exact hstatic, rfl, fun _ => ⟨rfl, rfl, rfl⟩,
      fun hf => absurd he (by rw [hf]; exact Bool.false_ne_true)⟩
  · have he' : svEmpty v m = false := by
      cases hb : svEmpty v m
      · rfl
      · exact absurd hb he
    by_cases h1 : v.m_NullTerminatedPtr = 1
    · have hcs : cstr v m = (v.m_Begin, v, m) := by
        simp only [cstr, if_neg he, if_pos h1]
      rw [hcs]
      exact ⟨hterm h1, rfl, fun hb => absurd hb he,
        fun _ _ => ⟨rfl, rfl, rfl⟩⟩
    · by_cases h0 : v.m_NullTerminatedPtr = 0
      · have hku : v.m_Length ≠ SIZE_MAX := by
          intro hu
          exact h1 (hwf.2 hu).1
        have hcs : cstr v m =
            (m.length, { v with m_NullTerminatedPtr := m.length },
             m ++ (((List.range v.m_Length).map
               fun i => readMem m (v.m_Begin + i)) ++ [0])) := by
          simp only [cstr, if_neg he, if_neg h1, if_pos h0, List.append_assoc]
        rw [hcs]
        have hLv : lengthVal v m = v.m_Length := lengthVal_known v m hku
        have hread : readMem
            (m ++ (((List.range v.m_Length).map
              fun i => readMem m (v.m_Begin + i)) ++ [0]))
            (m.length + v.m_Length) = 0 := by
          rw [readMem_append_right]
          have hlenmap : ((List.range v.m_Length).map
              fun i => readMem m (v.m_Begin + i)).length = v.m_Length := by
            simp
          have hz : readMem (((List.range v.m_Length).map
              fun i => readMem m (v.m_Begin + i)) ++ [0])
              (((List.range v.m_Length).map
                fun i => readMem m (v.m_Begin + i)).length) = 0 := by
            rw [readMem, List.getD_append_right _ _ _ _ (Nat.le_refl _)]
            simp
          rwa [hlenmap] at hz
        refine ⟨by rw [hLv]; exact hread, ?_,
          fun hb => absurd hb he, fun _ hb => absurd hb h1⟩
        rw [hLv]
        exact lengthVal_known _ _ (by simpa using hku)
      · have hcs : cstr v m = (v.m_NullTerminatedPtr, v, m) := by
          simp only [cstr, if_neg he, if_neg h1, if_neg h0]
        rw [hcs]
        have h2 : 1 < v.m_NullTerminatedPtr := by omega
        have hku : v.m_Length ≠ SIZE_MAX := by
          intro hu
          exact h1 (hwf.2 hu).1
        refine ⟨?_, rfl, fun hb => absurd hb he, fun _ hb => absurd hb h1⟩
        rw [lengthVal_known v m hku]
        exact hown h2

/-- C1 witness: a concrete not-terminated view of length 3; the allocated
copy carries the terminator at offset `length()`. -/
theorem c1_witness :
    readMem (cstr (fromPtrLen 2 3) [9, 0, 7, 7, 7, 9]).2.2
      ((cstr (fromPtrLen 2 3) [9, 0, 7, 7, 7, 9]).1 +
        lengthVal (fromPtrLen 2 3) [9, 0, 7, 7, 7, 9]) = 0 :=
  (c1_cstr_terminator (fromPtrLen 2 3) [9, 0, 7, 7, 7, 9]
    ⟨⟨by decide, by decide⟩, by decide, by decide, by decide⟩).1

/-- The sentinel is positive. -/
theorem SIZE_MAX_pos : 0 < SIZE_MAX := by decide

/-- The `StillNullTerminated` constructor establishes the invariant for any
in-range length. -/
theorem strongInv_fromPtrLenST (p l : Nat) (hl : l ≤ SIZE_MAX) :
    StrongInv (fromPtrLenStillNullTerminated p l) := by
  unfold fromPtrLenStillNullTerminated
  split
  · rename_i h
    subst h
    exact ⟨Nat.zero_le _, fun hx => absurd hx (by decide)⟩
  · exact ⟨hl, fun _ => rfl⟩

/-- The null-terminated-string constructor establishes the invariant. -/
theorem strongInv_fromSz (sz : Nat) : StrongInv (fromSz sz) := by
  by_cases hsz : sz = 0
  · simp only [fromSz, if_pos hsz]
    refine ⟨Nat.zero_le _, fun hx => ?_⟩
    have hx2 : (0 : Nat) = SIZE_MAX := hx
    have := SIZE_MAX_pos
    omega
  · simp only [fromSz, if_neg hsz]
    exact ⟨Nat.le_refl _, fun _ => rfl⟩

/-- The pointer-plus-length constructor establishes the invariant whenever the
explicit length is not the sentinel. -/
theorem strongInv_fromPtrLen (p l : Nat) (hl : l < SIZE_MAX) :
    StrongInv (fromPtrLen p l) :=
  ⟨Nat.le_of_lt hl, fun hx => by
    have hx2 : l = SIZE_MAX := hx
    omega⟩

/-- The managed-string constructor establishes the invariant for a string of
`size_t` length. -/
theorem strongInv_fromString (base slen o l : Nat) (hs : slen < SIZE_MAX) :
    StrongInv (fromString base slen o l) := by
  have hmin : min l (slen - o) < SIZE_MAX := by omega
  have hS := SIZE_MAX_pos
  unfold fromString
  split
  · refine ⟨Nat.zero_le _, fun hx => ?_⟩
    have hx2 : (0 : Nat) = SIZE_MAX := hx
    omega
  · split
    · refine ⟨Nat.le_of_lt hmin, fun hx => ?_⟩
      have hx2 : min l (slen - o) = SIZE_MAX := hx
      omega
    · refine ⟨Nat.le_of_lt hmin, fun hx => ?_⟩
      have hx2 : min l (slen - o) = SIZE_MAX := hx
      omega

/-- Every reachable view satisfies the strong invariant. -/
theorem reachable_strong_inv (m : List Nat) (hm : m.length < SIZE_MAX)
    (v : str_view_template) (h : Reachable m v) : StrongInv v := by
  have hS := SIZE_MAX_pos
  induction h with
  | ofDefault =>
    refine ⟨Nat.zero_le _, fun hx => ?_⟩
    have hx2 : (0 : Nat) = SIZE_MAX := hx
    omega
  | ofSz sz => exact strongInv_fromSz sz
  | ofPtrLen p l hl => exact strongInv_fromPtrLen p l hl
  | ofPtrLenST p l hl => exact strongInv_fromPtrLenST p l hl
  | ofString base slen o l hs => exact strongInv_fromString base slen o l hs
  | ofCopy src o l h ih =>
    by_cases hlz : src.m_Length = SIZE_MAX ∧ l = SIZE_MAX
    · simp only [copyCtor, if_pos hlz]
      exact ⟨Nat.le_refl _, fun _ => rfl⟩
    · rw [copyCtor_known src m o l hlz]
      have hL : lengthVal src m < SIZE_MAX := lengthVal_lt src m ih.1 hm
      have hmin : min l (lengthVal src m - o) < SIZE_MAX := by omega
      split
      · refine ⟨Nat.zero_le _, fun hx => ?_⟩
        have hx2 : (0 : Nat) = SIZE_MAX := hx
        omega
      · split
        · refine ⟨Nat.le_of_lt hmin, fun hx => ?_⟩
          have hx2 : min l (lengthVal src m - o) = SIZE_MAX := hx
          omega
        · refine ⟨Nat.le_of_lt hmin, fun hx => ?_⟩
          have hx2 : min l (lengthVal src m - o) = SIZE_MAX := hx
          omega
  | ofCopySelf src o l h ih =>
    by_cases hlz : src.m_Length = SIZE_MAX ∧ l = SIZE_MAX
    · simp only [copyCtor, if_pos hlz]
      exact ih
    · rw [copyCtor_known src m o l hlz]
      have hL : lengthVal src m < SIZE_MAX := lengthVal_lt src m ih.1 hm
      refine ⟨Nat.le_of_lt hL, fun hx => ?_⟩
      have hx2 : lengthVal src m = SIZE_MAX := hx
      omega
  | ofMoveDst src h ih => exact ih
  | ofMoveSrc src h ih =>
    refine ⟨Nat.zero_le _, fun hx => ?_⟩
    have hx2 : (0 : Nat) = SIZE_MAX := hx
    omega
  | ofCopyAssign dst src sa hd hs ihd ihs =>
    cases sa
    · refine ⟨ihs.1, fun hx => ?_⟩
      have h1 : src.m_NullTerminatedPtr = 1 := ihs.2 hx
      show (if src.m_NullTerminatedPtr = 1 then 1 else 0) = 1
      rw [if_pos h1]
    · exact ihd
  | ofMoveAssignDst dst src sa hd hs ihd ihs =>
    cases sa
    · exact ihs
    · exact ihd
  | ofMoveAssignSrc dst src sa hs ihs =>
    cases sa
    · refine ⟨Nat.zero_le _, fun hx => ?_⟩
      have hx2 : (0 : Nat) = SIZE_MAX := hx
      omega
    · exact ihs
  | ofSubstr v o l h ih =>
    by_cases hlz : v.m_Length = SIZE_MAX ∧ l = SIZE_MAX
    · simp only [substr, if_pos hlz]
      exact strongInv_fromSz _
    · rw [substr_known v m o l hlz]
      have hL : lengthVal v m < SIZE_MAX := lengthVal_lt v m ih.1 hm
      have hmin : min l (lengthVal v m - o) < SIZE_MAX := by omega
      split
      · exact strongInv_fromPtrLenST _ _ (Nat.le_of_lt hmin)
      · exact strongInv_fromPtrLen _ _ hmin
  | ofSubstrSelf v o l h ih =>
    by_cases hlz : v.m_Length = SIZE_MAX ∧ l = SIZE_MAX
    · simp only [substr, if_pos hlz]
      exact ih
    · rw [substr_known v m o l hlz]
      have hL : lengthVal v m < SIZE_MAX := lengthVal_lt v m ih.1 hm
      refine ⟨Nat.le_of_lt hL, fun hx => ?_⟩
      have hx2 : lengthVal v m = SIZE_MAX := hx
      omega
  | ofCstr v h ih =>
    by_cases he : svEmpty v m = true
    · simp only [cstr, if_pos he]
      exact ih
    · by_cases h1 : v.m_NullTerminatedPtr = 1
      · simp only [cstr, if_neg he, if_pos h1]
        exact ih
      · by_cases h0 : v.m_NullTerminatedPtr = 0
        · simp only [cstr, if_neg he, if_neg h1, if_pos h0]
          refine ⟨ih.1, fun hx => ?_⟩
          have h2 : v.m_NullTerminatedPtr = 1 := ih.2 hx
          omega
        · simp only [cstr, if_neg he, if_neg h1, if_neg h0]
          exact ih

/-- C4 counterexample: the explicit-length constructor called with length
`SIZE_MAX` (the unknown sentinel) produces a view whose cached length is the
Unknown sentinel while its termination tag is NotTerminated, violating the
claimed invariant. -/
theorem c4_counterexample :
    (fromPtrLen 7 SIZE_MAX).m_Length = SIZE_MAX ∧
    (fromPtrLen 7 SIZE_MAX).m_NullTerminatedPtr = 0 :=
  ⟨rfl, rfl⟩

/-- C4 (amended): every view produced by any constructor, assignment, or
derivation operation — with constructor length arguments in `size_t` range
and, for the explicit-length not-terminated constructor, different from the
`SIZE_MAX` sentinel — satisfies the invariant that an Unknown cached length
implies the termination tag is not NotTerminated. -/
theorem c4_unknown_length_invariant (m : List Nat) (hm : m.length < SIZE_MAX)
    (v : str_view_template) (h : Reachable m v) :
    v.m_Length = SIZE_MAX → v.m_NullTerminatedPtr ≠ 0 := by
  intro hx
  rw [(reachable_strong_inv m hm v h).2 hx]
  omega

/-- C4 witness: the invariant instantiated on the view of a concrete
null-terminated string, whose length is the Unknown sentinel. -/
theorem c4_witness : (fromSz 2).m_NullTerminatedPtr ≠ 0 :=
  c4_unknown_length_invariant [5, 0] (by decide) (fromSz 2)
    (Reachable.ofSz 2) (by decide)

/-- Setting one list element replaces its `filterMap` contribution, up to
permutation. -/
theorem filterMap_set_perm {α β : Type} (f : α → Option β) (l : List α)
    (i : Nat) (x y : α) (h : l.get? i = some x) :
    List.Perm ((l.set i y).filterMap f ++ (f x).toList)
      (l.filterMap f ++ (f y).toList) := by
  induction l generalizing i with
  | nil => simp at h
  | cons a t ih =>
    cases i with
    | zero =>
      simp only [List.get?] at h
      injection h with h
      subst h
      simp only [List.set]
      cases hfy : f y <;> cases hfa : f a
      · rw [List.filterMap_cons_none hfy, List.filterMap_cons_none hfa]
      · rw [List.filterMap_cons_none hfy, List.filterMap_cons_some hfa]
        simp
      · rename_i c
        rw [List.filterMap_cons_some hfy, List.filterMap_cons_none hfa]
        simp only [Option.toList, List.append_nil]
        exact @List.perm_append_comm _ [c] (List.filterMap f t)
      · rename_i c b
        rw [List.filterMap_cons_some hfy, List.filterMap_cons_some hfa]
        simp only [Option.toList]
        refine (List.Perm.cons _ (@List.perm_append_comm _ (List.filterMap f t) [b])).trans ?_
        refine (List.Perm.swap _ _ _).trans ?_
        exact List.Perm.cons _
          (@List.perm_append_comm _ [c] (List.filterMap f t))
    | succ i =>
      simp only [List.get?] at h
      simp only [List.set]
      cases hfa : f a
      · rw [List.filterMap_cons_none hfa, List.filterMap_cons_none hfa]
        exact ih i h
      · rw [List.filterMap_cons_some hfa, List.filterMap_cons_some hfa]
        exact List.Perm.cons _ (ih i h)

/-- Multiset form of `filterMap_set_perm`. -/
theorem filterMap_set_ms {α β : Type} (f : α → Option β) (l : List α)
    (i : Nat) (x y : α) (h : l.get? i = some x) :
    ((l.set i y).filterMap f : Multiset β) + ((f x).toList : Multiset β) =
      (l.filterMap f : Multiset β) + ((f y).toList : Multiset β) := by
  rw [Multiset.coe_add, Multiset.coe_add, Multiset.coe_eq_coe]
  exact filterMap_set_perm f l i x y h

/-- Membership form of `filterMap_set_perm`. -/
theorem mem_of_filterMap_set {α β : Type} (f : α → Option β) (l : List α)
    (i : Nat) (x y : α) (h : l.get? i = some x) (r : β)
    (hr : r ∈ (l.set i y).filterMap f) :
    r ∈ l.filterMap f ∨ f y = some r := by
  have hperm := filterMap_set_perm f l i x y h
  have hmem : r ∈ l.filterMap f ++ (f y).toList :=
    hperm.mem_iff.mp (List.mem_append_left _ hr)
  rcases List.mem_append.mp hmem with h1 | h1
  · exact Or.inl h1
  · right
    cases hfy : f y
    · rw [hfy] at h1
      simp at h1
    · rw [hfy] at h1
      simp at h1
      rw [h1]

/-- The copied buffer has length `L + 1`. -/
theorem copyBuf_length (m : List Nat) (b L : Nat) :
    (copyBuf m b L).length = L + 1 := by
  simp [copyBuf]

/-- The copied buffer carries the terminator at offset `L`. -/
theorem copyBuf_term (m : List Nat) (b L : Nat) :
    readMem (copyBuf m b L) L = 0 := by
  unfold copyBuf readMem
  rw [List.getD_append_right _ _ _ _ (by simp)]
  simp

/-- The copied buffer carries the source data below offset `L`. -/
theorem copyBuf_data (m : List Nat) (b L j : Nat) (hj : j < L) :
    readMem (copyBuf m b L) j = readMem m (b + j) := by
  unfold copyBuf readMem
  rw [List.getD_append _ _ _ _ (by simp [hj])]
  rw [List.getD_eq_getElem _ _ (by simp [hj])]
  simp

/-- The atomic read never leaves a thread holding a buffer. -/
theorem pendF_readResult (b n : Nat) : pendF (readResult b n) = none := by
  unfold readResult
  split
  · rfl
  · split <;> rfl

/-- The initial state satisfies the protocol invariant. -/
theorem cinv_init (b L N : Nat) (m0 : List Nat) :
    CInv b L m0 (initConfig N m0) := by
  refine ⟨Nat.le_refl _, fun a _ => rfl, fun a ha => absurd ha (by simp [initConfig]),
    by simp [initConfig], ?_, Or.inl rfl, ?_⟩
  · have hp : pendingBufs (List.replicate N TState.ready) = [] := by
      refine List.filterMap_eq_nil_iff.mpr fun t ht => ?_
      rw [List.eq_of_mem_replicate ht]
      rfl
    show (([] : List Nat) : Multiset Nat) =
      (([] : List Nat) : Multiset Nat) + (pendingBufs (List.replicate N TState.ready) : Multiset Nat) +
        (installedList 0 : Multiset Nat)
    rw [hp]
    simp [installedList]
  · intro r hr
    have hp : resultsOf (List.replicate N TState.ready) = [] := by
      refine List.filterMap_eq_nil_iff.mpr fun t ht => ?_
      rw [List.eq_of_mem_replicate ht]
      rfl
    simp only [initConfig] at hr
    rw [hp] at hr
    simp at hr

/-- One scheduler step preserves the protocol invariant. -/
theorem cinv_step (b L : Nat) (m0 : List Nat) (h2 : 2 ≤ m0.length)
    (hbL : b + L ≤ m0.length) (c : Config) (hc : CInv b L m0 c) (i : Nat) :
    CInv b L m0 (threadStep b L c i) := by
  cases hg : c.threads.get? i with
  | none =>
    have hstep : threadStep b L c i = c := by
      unfold threadStep
      rw [hg]
    rw [hstep]
    exact hc
  | some t =>
    cases t with
    | done r =>
      have hstep : threadStep b L c i = c := by
        unfold threadStep
        rw [hg]
      rw [hstep]
      exact hc
    | ready =>
      have hstep : threadStep b L c i =
          { c with threads := c.threads.set i (readResult b c.ntp) } := by
        unfold threadStep
        rw [hg]
      rw [hstep]
      have hpd := filterMap_set_ms pendF c.threads i TState.ready
        (readResult b c.ntp) hg
      rw [pendF_readResult] at hpd
      simp only [pendF, Option.toList_none, Multiset.coe_nil, add_zero] at hpd
      refine ⟨hc.mono, hc.stable, hc.alloc_props, hc.alloc_nodup, ?_,
        hc.ntp_ok, ?_⟩
      · have hperm := hc.perm
        simp only [pendingBufs] at hperm
        show (c.allocs : Multiset Nat) = (c.freed : Multiset Nat) +
          ((c.threads.set i (readResult b c.ntp)).filterMap pendF : Multiset Nat) +
          (installedList c.ntp : Multiset Nat)
        rw [hpd]
        exact hperm
      · intro r hr
        simp only [resultsOf] at hr
        rcases mem_of_filterMap_set resF c.threads i TState.ready
          (readResult b c.ntp) hg r hr with h1 | h1
        · exact hc.done_ok r h1
        · by_cases h0 : c.ntp = 0
          · simp only [readResult, if_pos h0] at h1
            simp [resF] at h1
          · have hge : 2 ≤ c.ntp := by
              rcases hc.ntp_ok with h | h
              · exact absurd h h0
              · exact (hc.alloc_props c.ntp h).1
            simp only [readResult, if_neg h0,
              if_neg (show ¬c.ntp = 1 by omega)] at h1
            simp only [resF] at h1
            injection h1 with h1
            exact ⟨h1.symm, h0⟩
    | needAlloc =>
      have hstep : threadStep b L c i =
          { c with mem := c.mem ++ copyBuf c.mem b L,
                   allocs := c.allocs ++ [c.mem.length],
                   threads := c.threads.set i (TState.haveBuf c.mem.length) } := by
        unfold threadStep
        rw [hg]
      rw [hstep]
      have hlen : (c.mem ++ copyBuf c.mem b L).length = c.mem.length + (L + 1) := by
        rw [List.length_append, copyBuf_length]
      refine ⟨?_, ?_, ?_, ?_, ?_, ?_, ?_⟩
      · show m0.length ≤ (c.mem ++ copyBuf c.mem b L).length
        rw [hlen]
        have := hc.mono
        omega
      · intro a ha
        show readMem (c.mem ++ copyBuf c.mem b L) a = readMem m0 a
        rw [readMem_append_left _ _ _ (by have := hc.mono; omega)]
        exact hc.stable a ha
      · intro a ha
        have ha2 : a ∈ c.allocs ++ [c.mem.length] := ha
        rcases List.mem_append.mp ha2 with h1 | h1
        · obtain ⟨p1, p2, p3, p4⟩ := hc.alloc_props a h1
          refine ⟨p1, ?_, ?_, ?_⟩
          · show a + L < (c.mem ++ copyBuf c.mem b L).length
            rw [hlen]
            omega
          · show readMem (c.mem ++ copyBuf c.mem b L) (a + L) = 0
            rw [readMem_append_left _ _ _ p2]
            exact p3
          · intro j hj
            show readMem (c.mem ++ copyBuf c.mem b L) (a + j) = readMem m0 (b + j)
            rw [readMem_append_left _ _ _ (by omega)]
            exact p4 j hj
        · have hb2 : a = c.mem.length := by simpa using h1
          subst hb2
          refine ⟨by have := hc.mono; omega, ?_, ?_, ?_⟩
          · show c.mem.length + L < (c.mem ++ copyBuf c.mem b L).length
            rw [hlen]
            omega
          · show readMem (c.mem ++ copyBuf c.mem b L) (c.mem.length + L) = 0
            rw [readMem_append_right]
            exact copyBuf_term c.mem b L
          · intro j hj
            show readMem (c.mem ++ copyBuf c.mem b L) (c.mem.length + j) =
              readMem m0 (b + j)
            rw [readMem_append_right, copyBuf_data c.mem b L j hj]
            exact hc.stable (b + j) (by omega)
      · show (c.allocs ++ [c.mem.length]).Nodup
        refine List.nodup_append.mpr ⟨hc.alloc_nodup, by simp, fun a ha hb => ?_⟩
        have hp := (hc.alloc_props a ha).2.1
        simp at hb
        omega
      · have hpd := filterMap_set_ms pendF c.threads i TState.needAlloc
          (TState.haveBuf c.mem.length) hg
        simp only [pendF, Option.toList_none, Option.toList_some,
          Multiset.coe_nil, add_zero] at hpd
        have hperm := hc.perm
        simp only [pendingBufs] at hperm
        show ((c.allocs ++ [c.mem.length] : List Nat) : Multiset Nat) =
          (c.freed : Multiset Nat) +
          ((c.threads.set i (TState.haveBuf c.mem.length)).filterMap pendF :
            Multiset Nat) +
          (installedList c.ntp : Multiset Nat)
        rw [← Multiset.coe_add, hperm, hpd]
        abel
      · rcases hc.ntp_ok with h | h
        · exact Or.inl h
        · exact Or.inr (List.mem_append_left _ h)
      · intro r hr
        simp only [resultsOf] at hr
        rcases mem_of_filterMap_set resF c.threads i TState.needAlloc
          (TState.haveBuf c.mem.length) hg r hr with h1 | h1
        · exact hc.done_ok r h1
        · simp [resF] at h1
    | haveBuf buf =>
      have hbufmem : buf ∈ pendingBufs c.threads := by
        simp only [pendingBufs]
        exact List.mem_filterMap.mpr ⟨TState.haveBuf buf, List.get?_mem hg, rfl⟩
      have hballoc : buf ∈ c.allocs := by
        have h2m : buf ∈ (c.allocs : Multiset Nat) := by
          rw [hc.perm]
          refine Multiset.mem_add.mpr (Or.inl (Multiset.mem_add.mpr (Or.inr ?_)))
          exact Multiset.mem_coe.mpr hbufmem
        exact Multiset.mem_coe.mp h2m
      have hbuf2 : 2 ≤ buf := (hc.alloc_props buf hballoc).1
      have hstep : threadStep b L c i =
          if c.ntp = 0 then
            { c with ntp := buf, threads := c.threads.set i (TState.done buf) }
          else
            { c with freed := c.freed ++ [buf],
                     threads := c.threads.set i (TState.done c.ntp) } := by
        unfold threadStep
        rw [hg]
      by_cases h0 : c.ntp = 0
      · rw [hstep, if_pos h0]
        have hpd := filterMap_set_ms pendF c.threads i (TState.haveBuf buf)
          (TState.done buf) hg
        simp only [pendF, Option.toList_none, Option.toList_some,
          Multiset.coe_nil, add_zero] at hpd
        refine ⟨hc.mono, hc.stable, hc.alloc_props, hc.alloc_nodup, ?_,
          Or.inr hballoc, ?_⟩
        · have hperm := hc.perm
          simp only [pendingBufs, installedList, if_pos h0,
            Multiset.coe_nil, add_zero] at hperm
          show (c.allocs : Multiset Nat) = (c.freed : Multiset Nat) +
            ((c.threads.set i (TState.done buf)).filterMap pendF : Multiset Nat) +
            (installedList buf : Multiset Nat)
          rw [installedList, if_neg (show ¬buf = 0 by omega), hperm, ← hpd]
          abel
        · intro r hr
          simp only [resultsOf] at hr
          rcases mem_of_filterMap_set resF c.threads i (TState.haveBuf buf)
            (TState.done buf) hg r hr with h1 | h1
          · exact absurd h0 (hc.done_ok r h1).2
          · simp only [resF] at h1
            injection h1 with h1
            exact ⟨h1.symm, show ¬buf = 0 by omega⟩
      · rw [hstep, if_neg h0]
        have hpd := filterMap_set_ms pendF c.threads i (TState.haveBuf buf)
          (TState.done c.ntp) hg
        simp only [pendF, Option.toList_none, Option.toList_some,
          Multiset.coe_nil, add_zero] at hpd
        refine ⟨hc.mono, hc.stable, hc.alloc_props, hc.alloc_nodup, ?_,
          hc.ntp_ok, ?_⟩
        · have hperm := hc.perm
          simp only [pendingBufs] at hperm
          show (c.allocs : Multiset Nat) =
            ((c.freed ++ [buf] : List Nat) : Multiset Nat) +
            ((c.threads.set i (TState.done c.ntp)).filterMap pendF : Multiset Nat) +
            (installedList c.ntp : Multiset Nat)
          rw [← Multiset.coe_add, hperm, ← hpd]
          abel
        · intro r hr
          simp only [resultsOf] at hr
          rcases mem_of_filterMap_set resF c.threads i (TState.haveBuf buf)
            (TState.done c.ntp) hg r hr with h1 | h1
          · exact hc.done_ok r h1
          · simp only [resF] at h1
            injection h1 with h1
            exact ⟨h1.symm, h0⟩

/-- A scheduler step never changes the number of threads. -/
theorem threadStep_threads_length (b L : Nat) (c : Config) (i : Nat) :
    (threadStep b L c i).threads.length = c.threads.length := by
  cases hg : c.threads.get? i with
  | none =>
    have hstep : threadStep b L c i = c := by
      unfold threadStep
      rw [hg]
    rw [hstep]
  | some t =>
    cases t with
    | ready =>
      have hstep : threadStep b L c i =
          { c with threads := c.threads.set i (readResult b c.ntp) } := by
        unfold threadStep
        rw [hg]
      rw [hstep]
      simp [List.length_set]
    | needAlloc =>
      have hstep : threadStep b L c i =
          { c with mem := c.mem ++ copyBuf c.mem b L,
                   allocs := c.allocs ++ [c.mem.length],
                   threads := c.threads.set i (TState.haveBuf c.mem.length) } := by
        unfold threadStep
        rw [hg]
      rw [hstep]
      simp [List.length_set]
    | haveBuf buf =>
      have hstep : threadStep b L c i =
          if c.ntp = 0 then
            { c with ntp := buf, threads := c.threads.set i (TState.done buf) }
          else
            { c with freed := c.freed ++ [buf],
                     threads := c.threads.set i (TState.done c.ntp) } := by
        unfold threadStep
        rw [hg]
      rw [hstep]
      split <;> simp [List.length_set]
    | done r =>
      have hstep : threadStep b L c i = c := by
        unfold threadStep
        rw [hg]
      rw [hstep]

/-- A whole run never changes the number of threads. -/
theorem run_threads_length (b L : Nat) (s : List Nat) :
    ∀ c : Config, (run b L c s).threads.length = c.threads.length := by
  induction s with
  | nil => exact fun c => rfl
  | cons i s ih =>
    intro c
    show (run b L (threadStep b L c i) s).threads.length = _
    rw [ih (threadStep b L c i), threadStep_threads_length]

/-- A whole run preserves the protocol invariant. -/
theorem cinv_run (b L : Nat) (m0 : List Nat) (h2 : 2 ≤ m0.length)
    (hbL : b + L ≤ m0.length) (s : List Nat) :
    ∀ c : Config, CInv b L m0 c → CInv b L m0 (run b L c s) := by
  induction s with
  | nil => exact fun c hc => hc
  | cons i s ih =>
    intro c hc
    exact ih (threadStep b L c i) (cinv_step b L m0 h2 hbL c hc i)

/-- When every thread is finished, nobody holds an uninstalled buffer. -/
theorem pendingBufs_nil_of_done (ts : List TState)
    (h : ∀ t ∈ ts, isDone t = true) : pendingBufs ts = [] := by
  refine List.filterMap_eq_nil_iff.mpr fun t ht => ?_
  have hd := h t ht
  cases t with
  | done r => rfl
  | ready => simp [isDone] at hd
  | needAlloc => simp [isDone] at hd
  | haveBuf buf => simp [isDone] at hd

/-- When every thread is finished, there is one returned pointer per thread. -/
theorem resultsOf_length_of_done (ts : List TState)
    (h : ∀ t ∈ ts, isDone t = true) : (resultsOf ts).length = ts.length := by
  induction ts with
  | nil => rfl
  | cons t ts ih =>
    have ht := h t (List.mem_cons_self t ts)
    cases t with
    | done r =>
      simp only [resultsOf] at ih ⊢
      have hcons : List.filterMap resF (TState.done r :: ts) =
          r :: List.filterMap resF ts :=
        List.filterMap_cons_some rfl
      rw [hcons]
      simp only [List.length_cons]
      rw [ih fun t' ht' => h t' (List.mem_cons_of_mem _ ht')]
    | ready => simp [isDone] at ht
    | needAlloc => simp [isDone] at ht
    | haveBuf buf => simp [isDone] at ht

/-- C2: for every interleaving (schedule) of `N` threads concurrently calling
`c_str()` on the same nonempty NotTerminated view of length `L` at `b`, once
all threads have finished: the installed tag is a proper pointer (at least 2),
all `N` returned pointers are equal to it, the installed buffer is
null-terminated at offset `L` and carries exactly the view's data, exactly one
allocated buffer remains installed while every other allocation was freed
exactly once (the allocation list is a permutation of the freed list plus the
installed pointer, with no duplicates), and the installed buffer is never
freed. -/
theorem c2_concurrent_materialization (b L N : Nat) (m0 : List Nat)
    (sched : List Nat) (c : Config)
    (hc : c = run b L (initConfig N m0) sched)
    (_hL : 0 < L) (hm2 : 2 ≤ m0.length) (hbL : b + L ≤ m0.length)
    (hN : 1 ≤ N) (hdone : ∀ t ∈ c.threads, isDone t = true) :
    2 ≤ c.ntp ∧
    (∀ r ∈ resultsOf c.threads, r = c.ntp) ∧
    (resultsOf c.threads).length = N ∧
    readMem c.mem (c.ntp + L) = 0 ∧
    (∀ j < L, readMem c.mem (c.ntp + j) = readMem m0 (b + j)) ∧
    c.ntp ∈ c.allocs ∧
    List.Perm c.allocs (c.freed ++ [c.ntp]) ∧
    c.freed.Nodup ∧
    c.ntp ∉ c.freed ∧
    (∀ a ∈ c.allocs, a ∈ c.freed ∨ a = c.ntp) := by
  subst hc
  set c := run b L (initConfig N m0) sched with hcdef
  have hinv : CInv b L m0 c :=
    cinv_run b L m0 hm2 hbL sched (initConfig N m0) (cinv_init b L N m0)
  have htl : c.threads.length = N := by
    rw [hcdef, run_threads_length]
    simp [initConfig]
  have hrl : (resultsOf c.threads).length = N :=
    (resultsOf_length_of_done _ hdone).trans htl
  have hex : ∃ r, r ∈ resultsOf c.threads := by
    have hne : resultsOf c.threads ≠ [] := by
      intro hnil
      rw [hnil] at hrl
      simp at hrl
      omega
    exact List.exists_mem_of_ne_nil _ hne
  obtain ⟨r0, hr0⟩ := hex
  have hd0 := hinv.done_ok r0 hr0
  have hntp_ne : c.ntp ≠ 0 := hd0.2
  have hntp_mem : c.ntp ∈ c.allocs := by
    rcases hinv.ntp_ok with h | h
    · exact absurd h hntp_ne
    · exact h
  obtain ⟨hp1, hp2, hp3, hp4⟩ := hinv.alloc_props c.ntp hntp_mem
  have hpend : pendingBufs c.threads = [] := pendingBufs_nil_of_done _ hdone
  have hperm2 : (c.allocs : Multiset Nat) =
      ((c.freed ++ [c.ntp] : List Nat) : Multiset Nat) := by
    have h := hinv.perm
    rw [hpend, installedList, if_neg hntp_ne] at h
    simp only [Multiset.coe_nil, add_zero] at h
    rw [← Multiset.coe_add]
    exact h
  have hperm3 : List.Perm c.allocs (c.freed ++ [c.ntp]) :=
    Multiset.coe_eq_coe.mp hperm2
  have hnodup2 : (c.freed ++ [c.ntp]).Nodup := hperm3.nodup hinv.alloc_nodup
  have hfr := List.nodup_append.mp hnodup2
  have hnotfreed : c.ntp ∉ c.freed := fun hmem => hfr.2.2 hmem (by simp)
  refine ⟨hp1, fun r hr => (hinv.done_ok r hr).1, hrl, hp3, hp4, hntp_mem,
    hperm3, hfr.1, hnotfreed, fun a ha => ?_⟩
  rcases List.mem_append.mp (hperm3.mem_iff.mp ha) with h | h
  · exact Or.inl h
  · right
    simpa using h

/-- C2 witness: a concrete two-thread interleaving over a view of length 3 at
address 2; thread 0 wins the compare-exchange, thread 1 reads the installed
pointer; the installed pointer is at least 2 and was never freed. -/
theorem c2_witness :
    2 ≤ (run 2 3 (initConfig 2 [9, 0, 7, 7, 7]) [0, 0, 0, 1]).ntp ∧
    (run 2 3 (initConfig 2 [9, 0, 7, 7, 7]) [0, 0, 0, 1]).ntp ∉
      (run 2 3 (initConfig 2 [9, 0, 7, 7, 7]) [0, 0, 0, 1]).freed := by
  have h := c2_concurrent_materialization 2 3 2 [9, 0, 7, 7, 7] [0, 0, 0, 1]
    (run 2 3 (initConfig 2 [9, 0, 7, 7, 7]) [0, 0, 0, 1]) rfl (by decide)
    (by decide) (by decide) (by decide) (by decide)
  exact ⟨h.1, h.2.2.2.2.2.2.2.2.1⟩
